import Mathlib

/-!
Verification of the Aequilibrium portfolio-bookkeeping library.

The bookkeeping engine (`src/aequilibrium/bookkeeper.py`) operates on
dollar-holdings vectors, modelled here as `List ℚ`.  The numpy float
arithmetic of the source is modelled with exact rationals; `np.nan`
(the quiet undefined-result sentinel of `portfolio_return`) is modelled
as `Option.none`, and the raised `ValueError` of `compute_weights` as
`Except.error`.

The market-data adapter (`src/aequilibrium/market_data.py`) composes
external pandas/yfinance operations; those externals are abstract
parameters of the embedding, while the adapter's own control flow is
translated faithfully.
-/

namespace BookKeeper

/-- Total portfolio value `v_t = 1^T h_t`: `vt = holdings.sum()`. -/
def portfolio_value (holdings : List ℚ) : ℚ :=
  holdings.sum

/-- Convert holdings to weights `w_t = h_t / v_t`.  Raises
`ValueError` (modelled as `Except.error`) when the portfolio value is
zero, otherwise returns the elementwise quotient `holdings / vt`. -/
def compute_weights (holdings : List ℚ) : Except String (List ℚ) :=
  let vt := portfolio_value holdings
  if vt = 0 then
    Except.error "Cannot compute weights: portfolio value is zero."
  else
    Except.ok (holdings.map (fun h => h / vt))

/-- Portfolio leverage `||w_{1:n}||_1`: `np.abs(weights[:-1]).sum()` —
cash (the last element) is excluded by position. -/
def compute_leverage (weights : List ℚ) : ℚ :=
  (weights.dropLast.map (fun w => |w|)).sum

/-- Apply one period of returns to holdings (no trading):
`new_holdings = holdings * (1 + returns)`, elementwise. -/
def update_portfolio (holdings returns : List ℚ) : List ℚ :=
  List.zipWith (fun h r => h * (1 + r)) holdings returns

/-- Realized portfolio return `R^p_t = (v_{t+1} - v_t) / v_t`.  When
`v_t == 0` the source returns `np.nan`, modelled as `none`; otherwise
`some` of the signed fractional return. -/
def portfolio_return (holdings_t holdings_t_plus_1 : List ℚ) : Option ℚ :=
  let v_t := portfolio_value holdings_t
  let v_t_plus_1 := portfolio_value holdings_t_plus_1
  if v_t = 0 then
    none
  else
    some ((v_t_plus_1 - v_t) / v_t)

end BookKeeper

namespace MarketData

/-- A pandas `DataFrame` reduced to what the adapter's contract speaks
about: an ordered list of column names and a list of date-indexed rows.
A zero-row table is one whose `rows` list is empty. -/
structure DataFrame where
  columns : List String
  rows : List (String × List (Option ℚ))
deriving DecidableEq

/-- Create an empty returns DataFrame with the expected schema:
`pd.DataFrame(columns=tickers)`. -/
def _empty_returns (tickers : List String) : DataFrame :=
  ⟨tickers, []⟩

/-- The external pandas/yfinance operations `fetch_returns` composes,
kept abstract: `to_datetime` is `none` on a parse failure or `NaT`
(`pd.isna`), `download` is `none` when `yf.download` raises or returns
`None`, `getClose` is `none` when no `Close` column exists (it also
covers the single-ticker series-to-frame conversion). -/
structure MarketEnv where
  to_datetime : String → Option Int
  download : List String → String → String → Option DataFrame
  getClose : DataFrame → Option DataFrame
  ffill : DataFrame → DataFrame
  pct_change_dropna : DataFrame → DataFrame
  reindex : DataFrame → List String → DataFrame

/-- Fetch historical prices and compute daily returns, fail-soft: the
control flow of `MarketData.fetch_returns`, with the external pandas /
yfinance calls supplied by `env`.  Every failure path returns the
empty schema-correct table instead of raising. -/
def fetch_returns (env : MarketEnv) (tickers : List String)
    (start_date end_date : String) : DataFrame :=
  let returns := _empty_returns tickers
  match env.to_datetime start_date, env.to_datetime end_date with
  | some s, some e =>
    if s > e then returns
    else
      match env.download tickers start_date end_date with
      | none => returns
      | some data =>
        if data.rows = [] then returns
        else
          match env.getClose data with
          | none => returns
          | some prices =>
            let tmp := env.pct_change_dropna (env.ffill prices)
            if tmp.rows = [] then returns
            else env.reindex tmp tickers
  | _, _ => returns

end MarketData

namespace BookKeeper

/-- Summing the elementwise quotient of a list divides the sum. -/
lemma sum_map_div (l : List ℚ) (v : ℚ) :
    (l.map (fun x => x / v)).sum = l.sum / v := by
  induction l with
  | nil => simp
  | cons a t ih => simp only [List.map_cons, List.sum_cons, ih, add_div]

/-- Summing a mapped list equals summing its images over the index range. -/
lemma sum_map_getD (f : ℚ → ℚ) (l : List ℚ) :
    (l.map f).sum = ∑ i ∈ Finset.range l.length, f (l.getD i 0) := by
  induction l with
  | nil => simp
  | cons a t ih =>
    rw [List.map_cons, List.sum_cons, ih, List.length_cons,
      Finset.sum_range_succ']
    simp only [List.getD_cons_succ, List.getD_cons_zero]
    exact add_comm _ _

/-- Mapped lists index through the map below their length. -/
lemma getD_map (f : ℚ → ℚ) (l : List ℚ) (i : Nat) (hi : i < l.length) :
    (l.map f).getD i 0 = f (l.getD i 0) := by
  induction l generalizing i with
  | nil => simp at hi
  | cons a t ih =>
    cases i with
    | zero => simp
    | succ j =>
      simp only [List.map_cons, List.getD_cons_succ]
      exact ih j (by simpa using hi)

/-- Dropping the last element preserves indexing below the last index. -/
lemma getD_dropLast (l : List ℚ) (i : Nat) (hi : i < l.length - 1) :
    l.dropLast.getD i 0 = l.getD i 0 := by
  induction l generalizing i with
  | nil => simp at hi
  | cons a t ih =>
    cases t with
    | nil => simp at hi
    | cons b u =>
      cases i with
      | zero => rfl
      | succ j =>
        have step : (a :: b :: u).dropLast = a :: (b :: u).dropLast := rfl
        rw [step, List.getD_cons_succ, List.getD_cons_succ]
        exact ih j (by simp at hi ⊢; omega)

/-- Zipped lists index through the combining function below both lengths. -/
lemma zipWith_getD (g : ℚ → ℚ → ℚ) (h r : List ℚ) (i : Nat)
    (hih : i < h.length) (hir : i < r.length) :
    (List.zipWith g h r).getD i 0 = g (h.getD i 0) (r.getD i 0) := by
  induction h generalizing r i with
  | nil => simp at hih
  | cons a t ih =>
    cases r with
    | nil => simp at hir
    | cons b u =>
      cases i with
      | zero => rfl
      | succ j =>
        rw [List.zipWith_cons_cons, List.getD_cons_succ, List.getD_cons_succ,
          List.getD_cons_succ]
        exact ih u j (by simpa using hih) (by simpa using hir)

/-- Growing each holding by its return adds the holdings-times-returns
cross terms to the total. -/
lemma sum_zipWith_growth (h r : List ℚ) (hlen : h.length = r.length) :
    (List.zipWith (fun a b => a * (1 + b)) h r).sum
      = h.sum + (List.zipWith (fun a b => a * b) h r).sum := by
  induction h generalizing r with
  | nil => simp
  | cons a t ih =>
    cases r with
    | nil => simp at hlen
    | cons b u =>
      simp only [List.zipWith_cons_cons, List.sum_cons, List.length_cons] at *
      rw [ih u (by omega)]
      ring

/-- Dividing the left list elementwise scales the zipped product sum. -/
lemma sum_zipWith_weights (v : ℚ) (h r : List ℚ) :
    (List.zipWith (fun a b => a * b) (h.map (fun x => x / v)) r).sum
      = (List.zipWith (fun a b => a * b) h r).sum / v := by
  induction h generalizing r with
  | nil => simp
  | cons a t ih =>
    cases r with
    | nil => simp
    | cons b u =>
      simp only [List.map_cons, List.zipWith_cons_cons, List.sum_cons, ih,
        add_div]
      ring_nf

/-- Leverage as an indexed sum over all indices but the last. -/
lemma leverage_eq_sum_range (w : List ℚ) :
    compute_leverage w
      = ∑ i ∈ Finset.range (w.length - 1), |w.getD i 0| := by
  rw [compute_leverage, sum_map_getD, List.length_dropLast]
  exact Finset.sum_congr rfl (fun i hi => by
    rw [getD_dropLast w i (Finset.mem_range.mp hi)])

end BookKeeper

namespace BookKeeper

/-- C1: `compute_weights h` raises the invalid-state error exactly when
`portfolio_value h = 0`, and otherwise returns the vector whose i-th
element is `h[i] / portfolio_value h` for every index i. -/
theorem compute_weights_error_iff_div (h : List ℚ) :
    ((∃ e, compute_weights h = Except.error e)
        ↔ portfolio_value h = 0) ∧
    (portfolio_value h ≠ 0 →
      ∃ w, compute_weights h = Except.ok w ∧ w.length = h.length ∧
        ∀ i, i < h.length →
          w.getD i 0 = h.getD i 0 / portfolio_value h) := by
  constructor
  · constructor
    · rintro ⟨e, he⟩
      by_contra hv
      simp [compute_weights, hv] at he
    · intro hv
      exact ⟨"Cannot compute weights: portfolio value is zero.",
        by simp [compute_weights, hv]⟩
  · intro hv
    refine ⟨h.map (fun x => x / portfolio_value h),
      by simp [compute_weights, hv], by simp, ?_⟩
    intro i hi
    exact getD_map _ h i hi

/-- Witness for C1 at the concrete holdings [1, 2, 3]. -/
theorem compute_weights_error_iff_div_witness :
    portfolio_value [(1:ℚ), 2, 3] ≠ 0 ∧
    (∃ w, compute_weights [(1:ℚ), 2, 3] = Except.ok w ∧
      w.length = [(1:ℚ), 2, 3].length ∧
      ∀ i, i < [(1:ℚ), 2, 3].length →
        w.getD i 0 = [(1:ℚ), 2, 3].getD i 0 / portfolio_value [(1:ℚ), 2, 3]) :=
  ⟨by norm_num [portfolio_value],
    (compute_weights_error_iff_div [1, 2, 3]).2 (by norm_num [portfolio_value])⟩

/-- C2: for equal-length holdings vectors, `portfolio_return` yields the
quiet not-a-number sentinel (modelled `none`, never a raised error)
exactly when the start value is zero, and otherwise yields the value
change divided by the start value. -/
theorem portfolio_return_nan_iff (h0 h1 : List ℚ)
    (hlen : h0.length = h1.length) :
    (portfolio_return h0 h1 = none ↔ portfolio_value h0 = 0) ∧
    (portfolio_value h0 ≠ 0 →
      portfolio_return h0 h1
        = some ((portfolio_value h1 - portfolio_value h0)
            / portfolio_value h0)) := by
  constructor
  · constructor
    · intro he
      by_contra hv
      simp [portfolio_return, hv] at he
    · intro hv
      simp [portfolio_return, hv]
  · intro hv
    simp [portfolio_return, hv]

/-- Witness for C2 at the concrete pair [0, 0, 0] and [100, 100, 100]. -/
theorem portfolio_return_nan_iff_witness :
    [(0:ℚ), 0, 0].length = [(100:ℚ), 100, 100].length ∧
    (portfolio_return [(0:ℚ), 0, 0] [(100:ℚ), 100, 100] = none
      ↔ portfolio_value [(0:ℚ), 0, 0] = 0) :=
  ⟨rfl, (portfolio_return_nan_iff [0, 0, 0] [100, 100, 100] rfl).1⟩

/-- C4: every successful weights vector sums to exactly 1, also for the
negative-value holdings [50000, -100000, 30000], whose value is -20000
and whose weights are [-5/2, 5, -3/2]. -/
theorem compute_weights_sum_one :
    (∀ h w : List ℚ, compute_weights h = Except.ok w → w.sum = 1) ∧
    portfolio_value [50000, -100000, 30000] = -20000 ∧
    compute_weights [50000, -100000, 30000]
      = Except.ok [-5/2, 5, -3/2] ∧
    [(-5 : ℚ)/2, 5, -3/2].sum = 1 := by
  refine ⟨?_, by norm_num [portfolio_value], ?_, by norm_num⟩
  · intro h w hok
    have hv : portfolio_value h ≠ 0 := by
      intro hv
      simp [compute_weights, hv] at hok
    have hw : w = h.map (fun x => x / portfolio_value h) := by
      simp [compute_weights, hv] at hok
      exact hok.symm
    subst hw
    rw [sum_map_div]
    exact div_self hv
  · simp [compute_weights, portfolio_value]
    norm_num

/-- Witness for C4 applying the sum-to-one part at the negative-value
holdings of the claim. -/
theorem compute_weights_sum_one_witness :
    compute_weights [(50000:ℚ), -100000, 30000]
      = Except.ok [-5/2, 5, -3/2] ∧
    [(-5 : ℚ)/2, 5, -3/2].sum = 1 := by
  have hok : compute_weights [(50000:ℚ), -100000, 30000]
      = Except.ok [-5/2, 5, -3/2] := by
    simp [compute_weights, portfolio_value]
    norm_num
  exact ⟨hok, compute_weights_sum_one.1 _ _ hok⟩

end BookKeeper

namespace BookKeeper

/-- C3: rolling holdings forward by a returns vector and taking the
period return yields the weighted combination of the returns; at the
concrete holdings [40000, 30000, 20000, 10000] with returns
[0.02, 0.01, -0.01, 0], the roll-forward is [40800, 30300, 19800, 10000]
and the period return is 0.009. -/
theorem roll_forward_period_return :
    (∀ h r w : List ℚ, h.length = r.length →
        compute_weights h = Except.ok w →
        portfolio_return h (update_portfolio h r)
          = some ((List.zipWith (fun a b => a * b) w r).sum)) ∧
    update_portfolio [40000, 30000, 20000, 10000] [2/100, 1/100, -1/100, 0]
      = [40800, 30300, 19800, 10000] ∧
    portfolio_return [40000, 30000, 20000, 10000]
        (update_portfolio [40000, 30000, 20000, 10000]
          [2/100, 1/100, -1/100, 0])
      = some (9/1000) := by
  refine ⟨?_, ?_, ?_⟩
  · intro h r w hlen hok
    have hv : portfolio_value h ≠ 0 := by
      intro hv
      simp [compute_weights, hv] at hok
    have hw : w = h.map (fun x => x / portfolio_value h) := by
      simp [compute_weights, hv] at hok
      exact hok.symm
    subst hw
    have hval : portfolio_value (update_portfolio h r)
        = portfolio_value h
            + (List.zipWith (fun a b => a * b) h r).sum :=
      sum_zipWith_growth h r hlen
    rw [sum_zipWith_weights]
    simp only [portfolio_return, hv, if_false, hval, add_sub_cancel_left]
  · simp [update_portfolio]
    norm_num
  · simp [portfolio_return, portfolio_value, update_portfolio]
    norm_num

/-- Witness for C3 applying the round-trip part at the claim's concrete
holdings and returns. -/
theorem roll_forward_period_return_witness :
    [(40000:ℚ), 30000, 20000, 10000].length
        = [(2:ℚ)/100, 1/100, -1/100, 0].length ∧
    compute_weights [(40000:ℚ), 30000, 20000, 10000]
        = Except.ok [2/5, 3/10, 1/5, 1/10] ∧
    portfolio_return [(40000:ℚ), 30000, 20000, 10000]
        (update_portfolio [(40000:ℚ), 30000, 20000, 10000]
          [2/100, 1/100, -1/100, 0])
      = some ((List.zipWith (fun a b => a * b)
          [(2:ℚ)/5, 3/10, 1/5, 1/10] [2/100, 1/100, -1/100, 0]).sum) := by
  have hok : compute_weights [(40000:ℚ), 30000, 20000, 10000]
      = Except.ok [2/5, 3/10, 1/5, 1/10] := by
    simp [compute_weights, portfolio_value]
    norm_num
  exact ⟨rfl, hok, roll_forward_period_return.1 _ _ _ rfl hok⟩

/-- C5: for weights vectors of length at least 1, the leverage is the
sum of the absolute values of all elements except the last; a length-1
(cash-only) vector yields leverage 0. -/
theorem compute_leverage_formula :
    (∀ w : List ℚ, 1 ≤ w.length →
        compute_leverage w
          = ∑ i ∈ Finset.range (w.length - 1), |w.getD i 0|) ∧
    (∀ c : ℚ, compute_leverage [c] = 0) := by
  constructor
  · intro w _
    exact leverage_eq_sum_range w
  · intro c
    simp [compute_leverage]

/-- Witness for C5 at the concrete weights [3, -4, 5]. -/
theorem compute_leverage_formula_witness :
    1 ≤ [(3:ℚ), -4, 5].length ∧
    compute_leverage [(3:ℚ), -4, 5]
      = ∑ i ∈ Finset.range ([(3:ℚ), -4, 5].length - 1),
          |[(3:ℚ), -4, 5].getD i 0| :=
  ⟨by norm_num, compute_leverage_formula.1 [3, -4, 5] (by norm_num)⟩

/-- C6: the portfolio value is the sum of the elements of the holdings
vector, the empty vector yielding 0; the operation is total (never
fails) on all rational inputs. -/
theorem portfolio_value_is_sum :
    (∀ h : List ℚ,
        portfolio_value h = ∑ i ∈ Finset.range h.length, h.getD i 0) ∧
    portfolio_value [] = 0 := by
  constructor
  · intro h
    have := sum_map_getD id h
    simpa [portfolio_value] using this
  · rfl

end BookKeeper

namespace BookKeeper

/-- C7: for equal-length holdings and returns vectors, the updated
portfolio has the same length and its i-th element is
`h[i] * (1 + r[i])` for every index i; the operation is total. -/
theorem update_portfolio_elementwise (h r : List ℚ)
    (hlen : h.length = r.length) :
    (update_portfolio h r).length = h.length ∧
    ∀ i, i < h.length →
      (update_portfolio h r).getD i 0
        = h.getD i 0 * (1 + r.getD i 0) := by
  constructor
  · simp [update_portfolio, hlen]
  · intro i hi
    exact zipWith_getD _ h r i hi (hlen ▸ hi)

/-- Witness for C7 at the concrete holdings [10, 20] and returns
[1/2, -1/4]. -/
theorem update_portfolio_elementwise_witness :
    [(10:ℚ), 20].length = [(1:ℚ)/2, -1/4].length ∧
    ((update_portfolio [(10:ℚ), 20] [(1:ℚ)/2, -1/4]).length
        = [(10:ℚ), 20].length ∧
      ∀ i, i < [(10:ℚ), 20].length →
        (update_portfolio [(10:ℚ), 20] [(1:ℚ)/2, -1/4]).getD i 0
          = [(10:ℚ), 20].getD i 0 * (1 + [(1:ℚ)/2, -1/4].getD i 0)) :=
  ⟨rfl, update_portfolio_elementwise [10, 20] [1/2, -1/4] rfl⟩

/-- C8: the leverage of any weights vector is non-negative, and it is 0
whenever every element except the last is 0 (pure cash). -/
theorem compute_leverage_nonneg :
    (∀ w : List ℚ, 0 ≤ compute_leverage w) ∧
    (∀ w : List ℚ, (∀ i, i + 1 < w.length → w.getD i 0 = 0) →
      compute_leverage w = 0) := by
  constructor
  · intro w
    apply List.sum_nonneg
    intro x hx
    simp only [List.mem_map] at hx
    obtain ⟨y, _, rfl⟩ := hx
    exact abs_nonneg y
  · intro w hz
    rw [leverage_eq_sum_range]
    apply Finset.sum_eq_zero
    intro i hi
    have hi1 : i + 1 < w.length := by
      have := Finset.mem_range.mp hi
      omega
    rw [hz i hi1, abs_zero]

/-- Witness for C8 applying the pure-cash part at the concrete weights
[0, 0, 5]. -/
theorem compute_leverage_nonneg_witness :
    (∀ i, i + 1 < [(0:ℚ), 0, 5].length → [(0:ℚ), 0, 5].getD i 0 = 0) ∧
    compute_leverage [(0:ℚ), 0, 5] = 0 := by
  have hz : ∀ i, i + 1 < [(0:ℚ), 0, 5].length →
      [(0:ℚ), 0, 5].getD i 0 = 0 := by
    intro i hi
    have h2 : i < 2 := by
      simp only [List.length_cons, List.length_nil] at hi
      omega
    interval_cases i <;> rfl
  exact ⟨hz, compute_leverage_nonneg.2 _ hz⟩

/-- C10: the cash (last) element never influences the leverage: two
equal-length weights vectors agreeing on every element except the last
have the same leverage. -/
theorem compute_leverage_cash_noninterference (w w' : List ℚ)
    (hlen : w.length = w'.length) (hpos : 1 ≤ w.length)
    (hagree : ∀ i, i + 1 < w.length → w.getD i 0 = w'.getD i 0) :
    compute_leverage w = compute_leverage w' := by
  rw [leverage_eq_sum_range, leverage_eq_sum_range, ← hlen]
  apply Finset.sum_congr rfl
  intro i hi
  have hi1 : i + 1 < w.length := by
    have := Finset.mem_range.mp hi
    omega
  rw [hagree i hi1]

/-- Witness for C10 at the concrete pair [1, -2, 100] and [1, -2, 7],
which differ only in cash. -/
theorem compute_leverage_cash_noninterference_witness :
    [(1:ℚ), -2, 100].length = [(1:ℚ), -2, 7].length ∧
    1 ≤ [(1:ℚ), -2, 100].length ∧
    (∀ i, i + 1 < [(1:ℚ), -2, 100].length →
      [(1:ℚ), -2, 100].getD i 0 = [(1:ℚ), -2, 7].getD i 0) ∧
    compute_leverage [(1:ℚ), -2, 100] = compute_leverage [(1:ℚ), -2, 7] := by
  have hagree : ∀ i, i + 1 < [(1:ℚ), -2, 100].length →
      [(1:ℚ), -2, 100].getD i 0 = [(1:ℚ), -2, 7].getD i 0 := by
    intro i hi
    have h2 : i < 2 := by
      simp only [List.length_cons, List.length_nil] at hi
      omega
    interval_cases i <;> rfl
  exact ⟨rfl, by norm_num,  hagree,
    compute_leverage_cash_noninterference _ _ rfl (by norm_num) hagree⟩

end BookKeeper

namespace MarketData

/-- A concrete environment whose date parser reads the string length as
a timestamp and whose downloads always fail, used to exercise the
inverted-date-range path of the fail-soft theorem. -/
def invEnv : MarketEnv :=
  ⟨fun s => some (Int.ofNat s.length),
    fun _ _ _ => none,
    fun _ => none,
    id,
    id,
    fun d _ => d⟩

/-- C9: whenever either date string fails to parse or the parsed start
date is after the parsed end date, `fetch_returns` returns (never
raises) the empty zero-row table whose columns are exactly the
requested tickers in the requested order. -/
theorem fetch_returns_failsoft (env : MarketEnv) (tickers : List String)
    (start_date end_date : String)
    (hbad : env.to_datetime start_date = none ∨
      env.to_datetime end_date = none ∨
      ∃ s e, env.to_datetime start_date = some s ∧
        env.to_datetime end_date = some e ∧ s > e) :
    fetch_returns env tickers start_date end_date
        = _empty_returns tickers ∧
    (fetch_returns env tickers start_date end_date).columns = tickers ∧
    (fetch_returns env tickers start_date end_date).rows = [] := by
  have hmain : fetch_returns env tickers start_date end_date
      = _empty_returns tickers := by
    unfold fetch_returns
    cases hs' : env.to_datetime start_date with
    | none => rfl
    | some s =>
      cases he' : env.to_datetime end_date with
      | none => rfl
      | some e =>
        have hgt : s > e := by
          rcases hbad with hs | he | ⟨s', e', hs, he, hlt⟩
          · rw [hs'] at hs
            cases hs
          · rw [he'] at he
            cases he
          · rw [hs'] at hs
            rw [he'] at he
            injection hs with hs
            injection he with he
            rw [hs, he]
            exact hlt
        simp only [hgt, if_true]
  exact ⟨hmain, by rw [hmain]; rfl, by rw [hmain]; rfl⟩

/-- Witness for C9 in the concrete environment `invEnv` with an
inverted date range ("aa" parses after "a"). -/
theorem fetch_returns_failsoft_witness :
    (invEnv.to_datetime "aa" = none ∨
      invEnv.to_datetime "a" = none ∨
      ∃ s e, invEnv.to_datetime "aa" = some s ∧
        invEnv.to_datetime "a" = some e ∧ s > e) ∧
    fetch_returns invEnv ["AAPL", "MSFT"] "aa" "a"
      = _empty_returns ["AAPL", "MSFT"] := by
  have hbad : invEnv.to_datetime "aa" = none ∨
      invEnv.to_datetime "a" = none ∨
      ∃ s e, invEnv.to_datetime "aa" = some s ∧
        invEnv.to_datetime "a" = some e ∧ s > e :=
    Or.inr (Or.inr ⟨2, 1, rfl, rfl, by decide⟩)
  exact ⟨hbad,
    (fetch_returns_failsoft invEnv ["AAPL", "MSFT"] "aa" "a" hbad).1⟩

end MarketData
